import Mathlib

/-!
Moving averages: naive re-summation and sliding window (`ds.cpp`)

A shallow embedding of the two functions of `ds.cpp`,
`calculateMovingAverageNaive` and `calculateMovingAverageOptimized`, and the
properties of their outputs.

Modelling choices.

* `vector<double>` is `List ℚ`: element arithmetic is exact.  The properties
  that depend on IEEE-754 arithmetic (rounding, NaN) are stated on a second
  embedding of the same loops over `Dbl`, see "Double-precision arithmetic".
* `int` variables (`k`, `i`, `j`) are mathematical integers `Int`.  The one
  place where the machine width enters is the implicit conversion of an `int`
  to `size_t` in `i < data.size()`, `data.size() < k` and in `data[...]`
  (whose parameter is a `size_t`): it is `toSizeT`.  Signed overflow, which is
  undefined behaviour, is not modelled: it needs `++i` at `INT_MAX`, reachable
  only when `data.size() > INT_MAX`, or `k - 1` at `k = INT_MIN`.
* `data[idx]` is `data[idx]?`; an access out of bounds makes the function
  return `none`.
* `currentSum / k` is the division of `ℚ` by the integer `k` viewed in `ℚ`;
  for `k = 0` Lean's total division yields `0`, which stands for the non-finite
  value of the IEEE division by zero.
-/

namespace MovingAverage

/-! ## Integer conversions -/

/-- Width of `size_t` in bits. -/
def SIZE_BITS : Nat := 64

/-- Smallest value of a 32-bit `int`. -/
def INT_MIN : Int := -2147483648

/-- Largest value of a 32-bit `int`. -/
def INT_MAX : Int := 2147483647

/-- Conversion of an `int` to `size_t`: a non-negative value is unchanged, a
negative one wraps around by `2 ^ 64`. -/
def toSizeT (z : Int) : Nat :=
  if 0 ≤ z then z.toNat else (z + 2 ^ SIZE_BITS).toNat

/-! ## `calculateMovingAverageNaive` -/

/-- Inner loop of `calculateMovingAverageNaive`:
`for (int j = 0; j < k; ++j) currentSum += data[i - j];` entered at `j` with
the accumulator `currentSum`. -/
def naiveInner (data : List ℚ) (k i : Int) (j : Int) (currentSum : ℚ) : Option ℚ :=
  if j < k then
    match data[toSizeT (i - j)]? with
    | none => none
    | some x => naiveInner data k i (j + 1) (currentSum + x)
  else some currentSum
termination_by (k - j).toNat
decreasing_by omega

/-- Outer loop of `calculateMovingAverageNaive`:
`for (int i = k - 1; i < data.size(); ++i) { ...; movingAverages.push_back(currentSum / k); }`
entered at `i` with the output built so far. -/
def naiveOuter (data : List ℚ) (k : Int) (i : Int) (movingAverages : List ℚ) :
    Option (List ℚ) :=
  if h : toSizeT i < data.length then
    match naiveInner data k i 0 0 with
    | none => none
    | some currentSum => naiveOuter data k (i + 1) (movingAverages ++ [currentSum / (k : ℚ)])
  else some movingAverages
termination_by ((data.length : Int) - i).toNat
decreasing_by
  unfold toSizeT at h
  split at h <;> omega

/-- The function `calculateMovingAverageNaive(data, k)`. -/
def calculateMovingAverageNaive (data : List ℚ) (k : Int) : Option (List ℚ) :=
  naiveOuter data k (k - 1) []

/-! ## `calculateMovingAverageOptimized` -/

/-- The guard `data.size() < k` at the top of `calculateMovingAverageOptimized`;
`k` is converted to `size_t`. -/
def optimizedGuard (data : List ℚ) (k : Int) : Bool :=
  decide (data.length < toSizeT k)

/-- First loop of `calculateMovingAverageOptimized`:
`for (int i = 0; i < k; ++i) currentSum += data[i];` entered at `i`. -/
def optimizedFirst (data : List ℚ) (k : Int) (i : Int) (currentSum : ℚ) : Option ℚ :=
  if i < k then
    match data[toSizeT i]? with
    | none => none
    | some x => optimizedFirst data k (i + 1) (currentSum + x)
  else some currentSum
termination_by (k - i).toNat
decreasing_by omega

/-- Second loop of `calculateMovingAverageOptimized`:
`for (int i = k; i < data.size(); ++i) { currentSum = currentSum - data[i - k] + data[i]; movingAverages.push_back(currentSum / k); }`
entered at `i`. -/
def optimizedSlide (data : List ℚ) (k : Int) (i : Int) (currentSum : ℚ)
    (movingAverages : List ℚ) : Option (List ℚ) :=
  if h : toSizeT i < data.length then
    match data[toSizeT (i - k)]?, data[toSizeT i]? with
    | some a, some b =>
      optimizedSlide data k (i + 1) (currentSum - a + b)
        (movingAverages ++ [(currentSum - a + b) / (k : ℚ)])
    | _, _ => none
  else some movingAverages
termination_by ((data.length : Int) - i).toNat
decreasing_by
  unfold toSizeT at h
  split at h <;> omega

/-- The function `calculateMovingAverageOptimized(data, k)`. -/
def calculateMovingAverageOptimized (data : List ℚ) (k : Int) : Option (List ℚ) :=
  if optimizedGuard data k then some []
  else
    match optimizedFirst data k 0 0 with
    | none => none
    | some currentSum => optimizedSlide data k k currentSum [currentSum / (k : ℚ)]

/-! ## The moving average in the words of the specification -/

/-- The sum `data[start] + data[start + 1] + ... + data[start + len - 1]` of the
window of `len` elements that begins at index `start`. -/
def windowSum (data : List ℚ) (start len : Nat) : ℚ :=
  ((data.drop start).take len).sum

/-- The output sequence as the specification defines it: `max(0, n - k + 1)`
elements, element `i` being the average of the input elements `[i, i + k - 1]`. -/
def movingAverageSpec (data : List ℚ) (k : Nat) : List ℚ :=
  (List.range (data.length + 1 - k)).map (fun i => windowSum data i k / (k : ℚ))

/-- The sample data of `main`. -/
def sampleData : List ℚ := [10, 12, 11, 13, 15, 14, 16, 18, 17]

/-- The window size of `main`. -/
def windowSize : Int := 3

/-- The window `data[start], ..., data[start + len - 1]` as a list. -/
def window (data : List ℚ) (start len : Nat) : List ℚ :=
  (data.drop start).take len

/-- The minimum of the elements of a non-empty list (`0` for the empty list). -/
def listMin : List ℚ → ℚ
  | [] => 0
  | [x] => x
  | x :: y :: xs => min x (listMin (y :: xs))

/-- The maximum of the elements of a non-empty list (`0` for the empty list). -/
def listMax : List ℚ → ℚ
  | [] => 0
  | [x] => x
  | x :: y :: xs => max x (listMax (y :: xs))

/-! ## Double-precision arithmetic

The claims about IEEE-754 arithmetic are settled on a second embedding of the
same two functions, in which an element is a `Dbl`: a finite double, given by
the rational number it denotes, or NaN.  Every addition, subtraction and
division rounds its exact result to the nearest number with a 53-bit
significand, ties to the even significand (`roundBinary64`).  The exponent range
is not bounded: overflow to infinity and subnormal numbers are not modelled, nor
is the sign of zero. -/

/-- A value of type `double`: a finite number or NaN. -/
inductive Dbl where
  | finite (q : ℚ)
  | nan

/-- The integer nearest to `q`, a tie going to the even one. -/
def roundHalfEven (q : ℚ) : Int :=
  if q - (⌊q⌋ : ℚ) < 1 / 2 then ⌊q⌋
  else if 1 / 2 < q - (⌊q⌋ : ℚ) then ⌊q⌋ + 1
  else if ⌊q⌋ % 2 = 0 then ⌊q⌋ else ⌊q⌋ + 1

/-- Rounding to binary64, round-to-nearest, ties to even: with `e` the exponent
of `x` (`2 ^ e ≤ |x| < 2 ^ (e + 1)`), `x` is rounded to a multiple of the unit in
the last place `2 ^ (e - 52)`. -/
def roundBinary64 (x : ℚ) : ℚ :=
  if x = 0 then 0
  else (roundHalfEven (x / 2 ^ (Int.log 2 |x| - 52)) : ℚ) * 2 ^ (Int.log 2 |x| - 52)

/-- The sum `a + b` of two doubles; NaN is absorbing. -/
def Dbl.add : Dbl → Dbl → Dbl
  | Dbl.finite x, Dbl.finite y => Dbl.finite (roundBinary64 (x + y))
  | _, _ => Dbl.nan

/-- The difference `a - b` of two doubles; NaN is absorbing. -/
def Dbl.sub : Dbl → Dbl → Dbl
  | Dbl.finite x, Dbl.finite y => Dbl.finite (roundBinary64 (x - y))
  | _, _ => Dbl.nan

/-- The quotient `a / k` of a double by an `int`, which converts to `double`
exactly; NaN is absorbing.  For `k = 0` the IEEE result is not finite and the
model returns `nan` in its place. -/
def Dbl.divInt : Dbl → Int → Dbl
  | Dbl.finite x, k => if k = 0 then Dbl.nan else Dbl.finite (roundBinary64 (x / (k : ℚ)))
  | Dbl.nan, _ => Dbl.nan

/-- Inner loop of `calculateMovingAverageNaive` over doubles:
`for (int j = 0; j < k; ++j) currentSum += data[i - j];`. -/
def naiveInnerDouble (data : List Dbl) (k i : Int) (j : Int) (currentSum : Dbl) :
    Option Dbl :=
  if j < k then
    match data[toSizeT (i - j)]? with
    | none => none
    | some x => naiveInnerDouble data k i (j + 1) (currentSum.add x)
  else some currentSum
termination_by (k - j).toNat
decreasing_by omega

/-- Outer loop of `calculateMovingAverageNaive` over doubles:
`for (int i = k - 1; i < data.size(); ++i) { double currentSum = 0.0; ...; movingAverages.push_back(currentSum / k); }`. -/
def naiveOuterDouble (data : List Dbl) (k : Int) (i : Int) (movingAverages : List Dbl) :
    Option (List Dbl) :=
  if h : toSizeT i < data.length then
    match naiveInnerDouble data k i 0 (Dbl.finite 0) with
    | none => none
    | some currentSum => naiveOuterDouble data k (i + 1) (movingAverages ++ [currentSum.divInt k])
  else some movingAverages
termination_by ((data.length : Int) - i).toNat
decreasing_by
  unfold toSizeT at h
  split at h <;> omega

/-- The function `calculateMovingAverageNaive(data, k)` over doubles. -/
def calculateMovingAverageNaiveDouble (data : List Dbl) (k : Int) : Option (List Dbl) :=
  naiveOuterDouble data k (k - 1) []

/-- First loop of `calculateMovingAverageOptimized` over doubles:
`for (int i = 0; i < k; ++i) currentSum += data[i];`. -/
def optimizedFirstDouble (data : List Dbl) (k : Int) (i : Int) (currentSum : Dbl) :
    Option Dbl :=
  if i < k then
    match data[toSizeT i]? with
    | none => none
    | some x => optimizedFirstDouble data k (i + 1) (currentSum.add x)
  else some currentSum
termination_by (k - i).toNat
decreasing_by omega

/-- Second loop of `calculateMovingAverageOptimized` over doubles:
`for (int i = k; i < data.size(); ++i) { currentSum = currentSum - data[i - k] + data[i]; movingAverages.push_back(currentSum / k); }`. -/
def optimizedSlideDouble (data : List Dbl) (k : Int) (i : Int) (currentSum : Dbl)
    (movingAverages : List Dbl) : Option (List Dbl) :=
  if h : toSizeT i < data.length then
    match data[toSizeT (i - k)]?, data[toSizeT i]? with
    | some a, some b =>
      optimizedSlideDouble data k (i + 1) ((currentSum.sub a).add b)
        (movingAverages ++ [((currentSum.sub a).add b).divInt k])
    | _, _ => none
  else some movingAverages
termination_by ((data.length : Int) - i).toNat
decreasing_by
  unfold toSizeT at h
  split at h <;> omega

/-- The function `calculateMovingAverageOptimized(data, k)` over doubles. -/
def calculateMovingAverageOptimizedDouble (data : List Dbl) (k : Int) : Option (List Dbl) :=
  if data.length < toSizeT k then some []
  else
    match optimizedFirstDouble data k 0 (Dbl.finite 0) with
    | none => none
    | some currentSum => optimizedSlideDouble data k k currentSum [currentSum.divInt k]

/-- The value that the inner loop of the naive function leaves in `currentSum`
for the window starting at `start`: the elements are added from the last one of
the window to the first. -/
def naiveSumDouble (data : List Dbl) (start len : Nat) : Dbl :=
  ((data.drop start).take len).foldr (fun x s => s.add x) (Dbl.finite 0)

/-- The value of `currentSum` of the optimized function when the window starts at
index `i`: the first `k` elements added in order, then one subtraction and one
addition for each step of the window. -/
def slideSumDouble (data : List Dbl) (k : Nat) : Nat → Dbl
  | 0 => (data.take k).foldl Dbl.add (Dbl.finite 0)
  | i + 1 => ((slideSumDouble data k i).sub (data.getD i Dbl.nan)).add
      (data.getD (i + k) Dbl.nan)

/-- Data with a single NaN, at index `1`. -/
def nanData : List Dbl :=
  [Dbl.finite 1, Dbl.nan, Dbl.finite 3, Dbl.finite 4, Dbl.finite 5]

theorem toSizeT_natCast (n : Nat) : toSizeT (n : Int) = n := by
  simp [toSizeT]

theorem toSizeT_neg {z : Int} (hz : z < 0) : toSizeT z = (z + 2 ^ 64).toNat := by
  have : ¬ (0 ≤ z) := by omega
  simp [toSizeT, SIZE_BITS, this]

/-- On the values of a 32-bit `int` (indeed on `[-2^64, 2^64)`) the conversion is
reduction modulo `2 ^ 64`. -/
theorem toSizeT_eq_emod {z : Int} (h₁ : -(2 ^ 64) ≤ z) (h₂ : z < 2 ^ 64) :
    toSizeT z = (z % 2 ^ 64).toNat := by
  unfold toSizeT SIZE_BITS
  split
  · rw [Int.emod_eq_of_lt (by omega) h₂]
  · congr 1
    rw [← Int.add_emod_self, Int.emod_eq_of_lt (by omega) (by omega)]

/-! ## Window sums -/

theorem windowSum_zero (data : List ℚ) (start : Nat) : windowSum data start 0 = 0 := by
  simp [windowSum]

theorem windowSum_succ_right (data : List ℚ) (start len : Nat) (x : ℚ)
    (hx : data[start + len]? = some x) :
    windowSum data start (len + 1) = windowSum data start len + x := by
  unfold windowSum
  rw [List.take_succ, List.sum_append, List.getElem?_drop, hx]
  simp

theorem windowSum_succ_left (data : List ℚ) (start len : Nat) (x : ℚ)
    (hx : data[start]? = some x) :
    windowSum data start (len + 1) = x + windowSum data (start + 1) len := by
  unfold windowSum
  obtain ⟨h, rfl⟩ := List.getElem?_eq_some_iff.mp hx
  rw [List.drop_eq_getElem_cons h, List.take_succ_cons, List.sum_cons]

theorem windowSum_slide (data : List ℚ) (start len : Nat) (a b : ℚ)
    (ha : data[start]? = some a) (hb : data[start + len]? = some b) :
    windowSum data (start + 1) len = windowSum data start len - a + b := by
  have h₁ := windowSum_succ_right data start len b hb
  have h₂ := windowSum_succ_left data start len a ha
  linarith

/-! ## The loops of `calculateMovingAverageNaive` -/

/-- The inner loop entered at `j` adds the `d = k - j` elements
`data[e - j], ..., data[e - k + 1]` that remain of the window ending at `e`. -/
theorem naiveInner_eq (data : List ℚ) (K e : Nat) (hKe : K ≤ e + 1) (he : e < data.length) :
    ∀ (d j : Nat) (s : ℚ), j + d = K →
      naiveInner data (K : Int) (e : Int) (j : Int) s
        = some (s + windowSum data (e + 1 - K) d) := by
  intro d
  induction d with
  | zero =>
    intro j s hj
    rw [naiveInner, if_neg (by omega), windowSum_zero, add_zero]
  | succ d ih =>
    intro j s hj
    have hidx : toSizeT ((e : Int) - (j : Int)) = e - j := by
      rw [← toSizeT_natCast (e - j)]
      congr 1
      omega
    obtain ⟨x, hget⟩ : ∃ x, data[e - j]? = some x :=
      ⟨_, List.getElem?_eq_getElem (by omega)⟩
    rw [naiveInner, if_pos (by omega), hidx, hget]
    have hstep := ih (j + 1) (s + x) (by omega)
    rw [Nat.cast_add, Nat.cast_one] at hstep
    simp only []
    rw [hstep, windowSum_succ_right data (e + 1 - K) d x
      (by rw [← hget]; congr 1; omega)]
    congr 1
    ring

/-- Once the end index has reached the length of the data the outer loop stops. -/
theorem naiveOuter_stop (data : List ℚ) (k : Int) (e : Nat) (acc : List ℚ)
    (he : data.length ≤ e) : naiveOuter data k (e : Int) acc = some acc := by
  rw [naiveOuter, dif_neg (by rw [toSizeT_natCast]; omega)]

/-- The outer loop entered at the end index `e` appends the averages of the `m`
windows that end at `e, ..., n - 1`. -/
theorem naiveOuter_eq (data : List ℚ) (K : Nat) :
    ∀ (m e : Nat) (acc : List ℚ), e + m = data.length → K ≤ e + 1 →
      naiveOuter data (K : Int) (e : Int) acc
        = some (acc ++ (List.range' (e + 1 - K) m).map
            (fun i => windowSum data i K / (K : ℚ))) := by
  intro m
  induction m with
  | zero =>
    intro e acc he _
    rw [naiveOuter_stop data _ e acc (by omega)]
    simp
  | succ m ih =>
    intro e acc he hKe
    have hin := naiveInner_eq data K e hKe (by omega) K 0 0 (by omega)
    rw [Nat.cast_zero] at hin
    rw [naiveOuter, dif_pos (by rw [toSizeT_natCast]; omega), hin]
    have hstep := ih (e + 1) (acc ++ [(0 + windowSum data (e + 1 - K) K) / (K : ℚ)])
      (by omega) (by omega)
    rw [Nat.cast_add, Nat.cast_one] at hstep
    simp only [Int.cast_natCast]
    rw [hstep, List.range'_succ, List.map_cons, zero_add, List.append_assoc]
    have : e + 1 + 1 - K = e + 1 - K + 1 := by omega
    rw [this]
    rfl

/-- For a window size `K ≥ 1` the naive function returns the sequence of the
specification. -/
theorem naive_eq_spec (data : List ℚ) (K : Nat) (hK : 1 ≤ K) :
    calculateMovingAverageNaive data (K : Int) = some (movingAverageSpec data K) := by
  unfold calculateMovingAverageNaive movingAverageSpec
  have hcast : (K : Int) - 1 = ((K - 1 : Nat) : Int) := by omega
  rw [hcast]
  by_cases h : K - 1 ≤ data.length
  · rw [naiveOuter_eq data K (data.length + 1 - K) (K - 1) [] (by omega) (by omega)]
    have : K - 1 + 1 - K = 0 := by omega
    rw [this, List.nil_append, List.range_eq_range']
  · rw [naiveOuter_stop data _ (K - 1) [] (by omega)]
    have : data.length + 1 - K = 0 := by omega
    rw [this]
    rfl

/-! ## The loops of `calculateMovingAverageOptimized` -/

/-- The guard is the comparison of the length with the window size when the
window size is not negative. -/
theorem optimizedGuard_natCast (data : List ℚ) (K : Nat) :
    optimizedGuard data (K : Int) = decide (data.length < K) := by
  rw [optimizedGuard, toSizeT_natCast]

/-- The first loop entered at `i` adds the `d = k - i` elements
`data[i], ..., data[k - 1]`. -/
theorem optimizedFirst_eq (data : List ℚ) (K : Nat) (hK : K ≤ data.length) :
    ∀ (d i : Nat) (s : ℚ), i + d = K →
      optimizedFirst data (K : Int) (i : Int) s = some (s + windowSum data i d) := by
  intro d
  induction d with
  | zero =>
    intro i s hi
    rw [optimizedFirst, if_neg (by omega), windowSum_zero, add_zero]
  | succ d ih =>
    intro i s hi
    obtain ⟨x, hget⟩ : ∃ x, data[i]? = some x :=
      ⟨_, List.getElem?_eq_getElem (by omega)⟩
    rw [optimizedFirst, if_pos (by omega), toSizeT_natCast, hget]
    have hstep := ih (i + 1) (s + x) (by omega)
    rw [Nat.cast_add, Nat.cast_one] at hstep
    simp only []
    rw [hstep, windowSum_succ_left data i d x hget]
    congr 1
    ring

/-- The sliding loop entered at `i` with the running sum of the window
`[i - k, i - 1]` appends the averages of the `m` windows ending at
`i, ..., n - 1`: the running sum stays the sum of the current window. -/
theorem optimizedSlide_eq (data : List ℚ) (K : Nat) :
    ∀ (m i : Nat) (s : ℚ) (acc : List ℚ), i + m = data.length → K ≤ i →
      s = windowSum data (i - K) K →
      optimizedSlide data (K : Int) (i : Int) s acc
        = some (acc ++ (List.range' (i - K + 1) m).map
            (fun t => windowSum data t K / (K : ℚ))) := by
  intro m
  induction m with
  | zero =>
    intro i s acc hi _ _
    rw [optimizedSlide, dif_neg (by rw [toSizeT_natCast]; omega)]
    simp
  | succ m ih =>
    intro i s acc hi hKi hs
    have hidx : toSizeT ((i : Int) - (K : Int)) = i - K := by
      rw [← toSizeT_natCast (i - K)]
      congr 1
      omega
    obtain ⟨a, ha⟩ : ∃ a, data[i - K]? = some a :=
      ⟨_, List.getElem?_eq_getElem (by omega)⟩
    obtain ⟨b, hb⟩ : ∃ b, data[i]? = some b :=
      ⟨_, List.getElem?_eq_getElem (by omega)⟩
    have hslide : windowSum data (i - K + 1) K = s - a + b := by
      rw [hs]
      exact windowSum_slide data (i - K) K a b ha (by rw [← hb]; congr 1; omega)
    rw [optimizedSlide, dif_pos (by rw [toSizeT_natCast]; omega), hidx, toSizeT_natCast, ha, hb]
    have hstep := ih (i + 1) (s - a + b) (acc ++ [(s - a + b) / (K : ℚ)]) (by omega) (by omega)
      (by rw [← hslide]; congr 1; omega)
    rw [Nat.cast_add, Nat.cast_one] at hstep
    simp only [Int.cast_natCast]
    rw [hstep, List.range'_succ, List.map_cons, List.append_assoc, hslide]
    have : i + 1 - K + 1 = i - K + 1 + 1 := by omega
    rw [this]
    rfl

/-- For every window size `K ≥ 0` the optimized function returns the sequence of
the specification. -/
theorem optimized_eq_spec (data : List ℚ) (K : Nat) :
    calculateMovingAverageOptimized data (K : Int) = some (movingAverageSpec data K) := by
  unfold calculateMovingAverageOptimized movingAverageSpec
  rw [optimizedGuard_natCast]
  by_cases h : data.length < K
  · rw [decide_eq_true h, if_pos rfl]
    have : data.length + 1 - K = 0 := by omega
    rw [this]
    rfl
  · rw [decide_eq_false h, if_neg (by simp)]
    have hfirst := optimizedFirst_eq data K (by omega) K 0 0 (by omega)
    rw [Nat.cast_zero] at hfirst
    rw [hfirst]
    simp only [Int.cast_natCast]
    rw [optimizedSlide_eq data K (data.length - K) K _ _ (by omega) (by omega) (by simp)]
    have : data.length + 1 - K = (data.length - K) + 1 := by omega
    rw [this, List.range_eq_range', List.range'_succ, List.map_cons, Nat.sub_self, zero_add]
    rfl

/-! ## Facts about the specified sequence -/

/-- The window sum is the sum of the elements at the indices
`start, ..., start + len - 1`. -/
theorem windowSum_eq_sum_range (data : List ℚ) (start len : Nat) :
    windowSum data start len = ∑ j in Finset.range len, data.getD (start + j) 0 := by
  induction len with
  | zero => simp [windowSum]
  | succ len ih =>
    rw [Finset.sum_range_succ, ← ih]
    unfold windowSum
    rw [List.take_succ, List.sum_append, List.getElem?_drop, List.getD_eq_getElem?_getD]
    cases data[start + len]? <;> simp

theorem movingAverageSpec_length (data : List ℚ) (K : Nat) :
    (movingAverageSpec data K).length = data.length + 1 - K := by
  simp [movingAverageSpec]

theorem movingAverageSpec_getElem? (data : List ℚ) (K i : Nat) (hi : i + K ≤ data.length) :
    (movingAverageSpec data K)[i]? = some (windowSum data i K / (K : ℚ)) := by
  unfold movingAverageSpec
  rw [List.getElem?_map, List.getElem?_range (by omega)]
  rfl

theorem movingAverageSpec_of_lt (data : List ℚ) (K : Nat) (h : data.length < K) :
    movingAverageSpec data K = [] := by
  unfold movingAverageSpec
  have : data.length + 1 - K = 0 := by omega
  rw [this]
  rfl

theorem movingAverageSpec_length_self (data : List ℚ) :
    movingAverageSpec data data.length = [data.sum / (data.length : ℚ)] := by
  unfold movingAverageSpec
  have : data.length + 1 - data.length = 1 := by omega
  rw [this, List.range_succ, List.range_zero]
  simp [windowSum]

theorem movingAverageSpec_one (data : List ℚ) : movingAverageSpec data 1 = data := by
  apply List.ext_getElem?
  intro i
  by_cases hi : i < data.length
  · rw [movingAverageSpec_getElem? data 1 i (by omega), List.getElem?_eq_getElem hi,
      windowSum_succ_right data i 0 data[i] (by simp [hi]), windowSum_zero]
    simp
  · rw [List.getElem?_eq_none (by rw [movingAverageSpec_length]; omega),
      List.getElem?_eq_none (by omega)]

/-! ## Equivalence of the two functions -/

/-- C1: with exact element arithmetic, for every sequence `data` and every window
size `k ≥ 1`, both functions return, and `calculateMovingAverageOptimized`
returns exactly the sequence that `calculateMovingAverageNaive` returns. -/
theorem optimized_eq_naive (data : List ℚ) (k : Int) (hk : 1 ≤ k) :
    ∃ out, calculateMovingAverageNaive data k = some out ∧
      calculateMovingAverageOptimized data k = some out := by
  lift k to ℕ using (by omega)
  exact ⟨movingAverageSpec data k, naive_eq_spec data k (by omega), optimized_eq_spec data k⟩

theorem optimized_eq_naive_witness :
    (1 : Int) ≤ 2 ∧ ∃ out, calculateMovingAverageNaive [4, 8, 6, 2] 2 = some out ∧
      calculateMovingAverageOptimized [4, 8, 6, 2] 2 = some out :=
  ⟨by decide, optimized_eq_naive [4, 8, 6, 2] 2 (by decide)⟩

/-! ## Element `i` is the average of the window `[i, i + k - 1]` -/

/-- C2: for `data` of length `n`, `1 ≤ k ≤ n` and `0 ≤ i ≤ n - k`, the naive
function returns a sequence whose element `i` is
`(data[i] + data[i + 1] + ... + data[i + k - 1]) / k`. -/
theorem naive_window_average (data : List ℚ) (k : Int) (i : Nat) (hk : 1 ≤ k)
    (hkn : k ≤ (data.length : Int)) (hi : (i : Int) ≤ (data.length : Int) - k) :
    ∃ out, calculateMovingAverageNaive data k = some out ∧
      out[i]? = some ((∑ j in Finset.range k.toNat, data.getD (i + j) 0) / (k : ℚ)) := by
  lift k to ℕ using (by omega)
  refine ⟨movingAverageSpec data k, naive_eq_spec data k (by omega), ?_⟩
  rw [movingAverageSpec_getElem? data k i (by omega), windowSum_eq_sum_range]
  simp

theorem naive_window_average_witness :
    ((1 : Int) ≤ 2 ∧ (2 : Int) ≤ (([3, 5, 7] : List ℚ).length : Int) ∧
      ((1 : Nat) : Int) ≤ (([3, 5, 7] : List ℚ).length : Int) - 2) ∧
    ∃ out, calculateMovingAverageNaive [3, 5, 7] 2 = some out ∧
      out[1]? = some ((∑ j in Finset.range (2 : Int).toNat,
        ([3, 5, 7] : List ℚ).getD (1 + j) 0) / ((2 : Int) : ℚ)) :=
  ⟨⟨by decide, by decide, by decide⟩,
    naive_window_average [3, 5, 7] 2 1 (by decide) (by decide) (by decide)⟩

/-- C3: for `data` of length `n`, `1 ≤ k ≤ n` and `0 ≤ i ≤ n - k`, the optimized
function returns a sequence whose element `i` is
`(data[i] + data[i + 1] + ... + data[i + k - 1]) / k`: the running sum of the
sliding loop is the sum of the current window. -/
theorem optimized_window_average (data : List ℚ) (k : Int) (i : Nat) (hk : 1 ≤ k)
    (hkn : k ≤ (data.length : Int)) (hi : (i : Int) ≤ (data.length : Int) - k) :
    ∃ out, calculateMovingAverageOptimized data k = some out ∧
      out[i]? = some ((∑ j in Finset.range k.toNat, data.getD (i + j) 0) / (k : ℚ)) := by
  lift k to ℕ using (by omega)
  refine ⟨movingAverageSpec data k, optimized_eq_spec data k, ?_⟩
  rw [movingAverageSpec_getElem? data k i (by omega), windowSum_eq_sum_range]
  simp

theorem optimized_window_average_witness :
    ((1 : Int) ≤ 3 ∧ (3 : Int) ≤ (([9, 1, 2, 6] : List ℚ).length : Int) ∧
      ((1 : Nat) : Int) ≤ (([9, 1, 2, 6] : List ℚ).length : Int) - 3) ∧
    ∃ out, calculateMovingAverageOptimized [9, 1, 2, 6] 3 = some out ∧
      out[1]? = some ((∑ j in Finset.range (3 : Int).toNat,
        ([9, 1, 2, 6] : List ℚ).getD (1 + j) 0) / ((3 : Int) : ℚ)) :=
  ⟨⟨by decide, by decide, by decide⟩,
    optimized_window_average [9, 1, 2, 6] 3 1 (by decide) (by decide) (by decide)⟩

/-! ## Length of the output -/

/-- C4: for `data` of length `n` and every window size `k ≥ 1`, the output of
each function has length exactly `max(0, n - k + 1)`. -/
theorem output_length (data : List ℚ) (k : Int) (hk : 1 ≤ k) :
    (∃ out, calculateMovingAverageNaive data k = some out ∧
      (out.length : Int) = max 0 ((data.length : Int) - k + 1)) ∧
    (∃ out, calculateMovingAverageOptimized data k = some out ∧
      (out.length : Int) = max 0 ((data.length : Int) - k + 1)) := by
  lift k to ℕ using (by omega)
  have hlen := movingAverageSpec_length data k
  exact ⟨⟨_, naive_eq_spec data k (by omega), by omega⟩,
    ⟨_, optimized_eq_spec data k, by omega⟩⟩

theorem output_length_witness :
    (1 : Int) ≤ 2 ∧
    (∃ out, calculateMovingAverageNaive [1, 2, 3, 4, 5] 2 = some out ∧
      (out.length : Int) = max 0 ((([1, 2, 3, 4, 5] : List ℚ).length : Int) - 2 + 1)) ∧
    (∃ out, calculateMovingAverageOptimized [1, 2, 3, 4, 5] 2 = some out ∧
      (out.length : Int) = max 0 ((([1, 2, 3, 4, 5] : List ℚ).length : Int) - 2 + 1)) :=
  ⟨by decide, output_length [1, 2, 3, 4, 5] 2 (by decide)⟩

/-- C5: when `len(data) < k` both functions return the empty sequence; in
particular empty data with `k ≥ 1` gives the empty output from both. -/
theorem insufficient_data_empty (data : List ℚ) (k : Int) (h : (data.length : Int) < k) :
    calculateMovingAverageNaive data k = some [] ∧
      calculateMovingAverageOptimized data k = some [] := by
  lift k to ℕ using (by omega)
  have hspec := movingAverageSpec_of_lt data k (by omega)
  exact ⟨by rw [naive_eq_spec data k (by omega), hspec],
    by rw [optimized_eq_spec data k, hspec]⟩

theorem insufficient_data_empty_witness :
    ((([7, 8] : List ℚ).length : Int) < 3) ∧
    calculateMovingAverageNaive [7, 8] 3 = some [] ∧
      calculateMovingAverageOptimized [7, 8] 3 = some [] :=
  ⟨by decide, insufficient_data_empty [7, 8] 3 (by decide)⟩

/-! ## Particular window sizes -/

/-- C6: for non-empty `data` and `k = len(data)` both functions return exactly
one element, the arithmetic mean `(sum of data) / len(data)`. -/
theorem single_window_mean (data : List ℚ) (h : data ≠ []) :
    calculateMovingAverageNaive data (data.length : Int)
        = some [data.sum / (data.length : ℚ)] ∧
      calculateMovingAverageOptimized data (data.length : Int)
        = some [data.sum / (data.length : ℚ)] := by
  have hpos : 1 ≤ data.length := List.length_pos.mpr h
  exact ⟨by rw [naive_eq_spec data _ hpos, movingAverageSpec_length_self],
    by rw [optimized_eq_spec data _, movingAverageSpec_length_self]⟩

theorem single_window_mean_witness :
    ([2, 4, 9] : List ℚ) ≠ [] ∧
    calculateMovingAverageNaive [2, 4, 9] (([2, 4, 9] : List ℚ).length : Int)
        = some [([2, 4, 9] : List ℚ).sum / (([2, 4, 9] : List ℚ).length : ℚ)] ∧
      calculateMovingAverageOptimized [2, 4, 9] (([2, 4, 9] : List ℚ).length : Int)
        = some [([2, 4, 9] : List ℚ).sum / (([2, 4, 9] : List ℚ).length : ℚ)] :=
  ⟨by simp, single_window_mean [2, 4, 9] (by simp)⟩

/-- C7: window size `k = 1` returns the input sequence unchanged, from both
functions. -/
theorem window_one_identity (data : List ℚ) :
    calculateMovingAverageNaive data 1 = some data ∧
      calculateMovingAverageOptimized data 1 = some data := by
  have hn := naive_eq_spec data 1 (le_refl 1)
  have ho := optimized_eq_spec data 1
  rw [movingAverageSpec_one, Nat.cast_one] at hn ho
  exact ⟨hn, ho⟩

/-! ## The demonstration of `main` -/

/-- C8: on the sample data `[10, 12, 11, 13, 15, 14, 16, 18, 17]` with window size
`3` both functions return exactly `[11, 12, 13, 14, 15, 16, 17]`. -/
theorem sample_output :
    calculateMovingAverageNaive sampleData windowSize = some [11, 12, 13, 14, 15, 16, 17] ∧
      calculateMovingAverageOptimized sampleData windowSize
        = some [11, 12, 13, 14, 15, 16, 17] := by
  have hspec : movingAverageSpec sampleData 3 = [11, 12, 13, 14, 15, 16, 17] := by
    simp [movingAverageSpec, sampleData, windowSum, List.range_succ]
    norm_num
  have hn := naive_eq_spec sampleData 3 (by decide)
  have ho := optimized_eq_spec sampleData 3
  rw [hspec] at hn ho
  exact ⟨hn, ho⟩

/-! ## The guard of `calculateMovingAverageOptimized` -/

/-- C9, as stated, fails at `k = 0`: on `data = [1, 2]` with `k = 0` the test
`data.size() < k` is false, the guard branch is not taken, and the function
returns a sequence of three elements instead of the empty one. -/
theorem optimized_guard_zero_window_counterexample :
    ((([1, 2] : List ℚ).length = 0) ∨ (0 : Int) = 0) ∧
      optimizedGuard [1, 2] 0 = false ∧
      ∃ out, calculateMovingAverageOptimized [1, 2] 0 = some out ∧ out.length = 3 := by
  refine ⟨Or.inr rfl, by decide, movingAverageSpec [1, 2] 0, ?_, ?_⟩
  · exact optimized_eq_spec [1, 2] 0
  · rw [movingAverageSpec_length]
    rfl

/-- C9, amended: for empty `data` and every `int` window size `k ≠ 0`,
`calculateMovingAverageOptimized` takes the guard branch `data.size() < k` and
returns the empty sequence. -/
theorem optimized_guard_empty_data (data : List ℚ) (k : Int) (hmin : INT_MIN ≤ k)
    (hn : data.length = 0) (hk : k ≠ 0) :
    optimizedGuard data k = true ∧ calculateMovingAverageOptimized data k = some [] := by
  have hguard : optimizedGuard data k = true := by
    unfold optimizedGuard toSizeT SIZE_BITS
    unfold INT_MIN at hmin
    rw [decide_eq_true_iff, hn]
    split <;> omega
  refine ⟨hguard, ?_⟩
  rw [calculateMovingAverageOptimized, if_pos hguard]

theorem optimized_guard_empty_data_witness :
    (INT_MIN ≤ 4 ∧ ([] : List ℚ).length = 0 ∧ (4 : Int) ≠ 0) ∧
      optimizedGuard [] 4 = true ∧ calculateMovingAverageOptimized [] 4 = some [] :=
  ⟨⟨by decide, rfl, by decide⟩,
    optimized_guard_empty_data [] 4 (by decide) rfl (by decide)⟩

/-! ## Window sizes that are zero or negative -/

/-- A negative `int` converts to a `size_t` of at least `2 ^ 64 - 2 ^ 31`. -/
theorem toSizeT_of_neg_ge {z : Int} (hneg : z < 0) (hmin : INT_MIN ≤ z) :
    2 ^ 64 - 2 ^ 31 ≤ toSizeT z := by
  unfold INT_MIN at hmin
  rw [toSizeT_neg hneg]
  omega

/-- The outer loop of the naive function stops at once when its start index,
converted to `size_t`, is not below the length. -/
theorem naiveOuter_stop_of_le (data : List ℚ) (k i : Int) (acc : List ℚ)
    (h : data.length ≤ toSizeT i) : naiveOuter data k i acc = some acc := by
  rw [naiveOuter, dif_neg (by omega)]

/-- For a window size `k ≤ 0` above `INT_MIN` the start index `k - 1` is negative
and the naive function returns the empty sequence. -/
theorem naive_of_nonpos (data : List ℚ) (k : Int) (hlen : data.length < 2 ^ 31)
    (hmin : INT_MIN < k) (hk : k ≤ 0) : calculateMovingAverageNaive data k = some [] := by
  have hconv := toSizeT_of_neg_ge (z := k - 1) (by omega) (by omega)
  exact naiveOuter_stop_of_le data k (k - 1) [] (by omega)

/-- For a negative window size the guard of the optimized function is taken. -/
theorem optimizedGuard_of_neg (data : List ℚ) (k : Int) (hlen : data.length < 2 ^ 31)
    (hmin : INT_MIN < k) (hk : k < 0) : optimizedGuard data k = true := by
  have hconv := toSizeT_of_neg_ge (z := k) hk (by omega)
  rw [optimizedGuard, decide_eq_true_iff]
  omega

theorem optimized_of_neg (data : List ℚ) (k : Int) (hlen : data.length < 2 ^ 31)
    (hmin : INT_MIN < k) (hk : k < 0) : calculateMovingAverageOptimized data k = some [] := by
  rw [calculateMovingAverageOptimized, if_pos (optimizedGuard_of_neg data k hlen hmin hk)]

theorem movingAverageSpec_zero (data : List ℚ) :
    movingAverageSpec data 0
      = List.replicate (data.length + 1) ((0 : ℚ) / ((0 : Int) : ℚ)) := by
  apply List.ext_getElem
  · simp [movingAverageSpec]
  · intro i h₁ h₂
    simp [movingAverageSpec, windowSum]

/-! ## Every index is in bounds -/

/-- C12: for `data` with `len(data) < 2 ^ 31` and every `int` `k > INT_MIN`, with
the `int`-against-`size_t` comparisons done on 64-bit unsigned values, every
access `data[i - j]` of the naive function and every access `data[i]`,
`data[i - k]` of the optimized function is in bounds: neither function reaches
the error branch of the `Option`-returning indexing, both return a sequence. -/
theorem index_in_bounds (data : List ℚ) (k : Int) (hlen : data.length < 2 ^ 31)
    (hmin : INT_MIN < k) :
    (∃ out, calculateMovingAverageNaive data k = some out) ∧
      (∃ out, calculateMovingAverageOptimized data k = some out) := by
  rcases lt_trichotomy k 0 with hk | hk | hk
  · exact ⟨⟨_, naive_of_nonpos data k hlen hmin (by omega)⟩,
      ⟨_, optimized_of_neg data k hlen hmin hk⟩⟩
  · subst hk
    exact ⟨⟨_, naive_of_nonpos data 0 hlen hmin (le_refl 0)⟩, ⟨_, optimized_eq_spec data 0⟩⟩
  · lift k to ℕ using (by omega)
    exact ⟨⟨_, naive_eq_spec data k (by omega)⟩, ⟨_, optimized_eq_spec data k⟩⟩

theorem index_in_bounds_witness :
    ((([5, 1, 4] : List ℚ).length < 2 ^ 31) ∧ INT_MIN < 2) ∧
      (∃ out, calculateMovingAverageNaive [5, 1, 4] 2 = some out) ∧
      (∃ out, calculateMovingAverageOptimized [5, 1, 4] 2 = some out) :=
  ⟨⟨by decide, by decide⟩, index_in_bounds [5, 1, 4] 2 (by decide) (by decide)⟩

/-! ## Window size zero -/

/-- C13: at window size `k = 0` the two functions disagree.  For every `data` of
length `n` (a `size_t`), the naive function returns the empty sequence, its
start index `-1` being `2 ^ 64 - 1` as an unsigned value; the optimized function
passes the guard and returns exactly `n + 1` elements, each of them the quotient
of the running sum `0` by `k = 0`. -/
theorem zero_window_disagree (data : List ℚ) (hsize : data.length < 2 ^ SIZE_BITS) :
    toSizeT (0 - 1) = 2 ^ 64 - 1 ∧
      calculateMovingAverageNaive data 0 = some [] ∧
      optimizedGuard data 0 = false ∧
      (∃ out, calculateMovingAverageOptimized data 0 = some out ∧
        out.length = data.length + 1 ∧ ∀ x ∈ out, x = (0 : ℚ) / ((0 : Int) : ℚ)) ∧
      calculateMovingAverageNaive data 0 ≠ calculateMovingAverageOptimized data 0 := by
  unfold SIZE_BITS at hsize
  have hconv : toSizeT (0 - 1) = 2 ^ 64 - 1 := by decide
  have hnaive : calculateMovingAverageNaive data 0 = some [] :=
    naiveOuter_stop_of_le data 0 (0 - 1) [] (by omega)
  have hopt := optimized_eq_spec data 0
  rw [movingAverageSpec_zero, Nat.cast_zero] at hopt
  refine ⟨hconv, hnaive, ?_, ⟨_, hopt, List.length_replicate _ _, ?_⟩, ?_⟩
  · rw [optimizedGuard, decide_eq_false_iff_not]
    exact Nat.not_lt_zero _
  · intro x hx
    exact List.eq_of_mem_replicate hx
  · rw [hnaive, hopt]
    intro h
    have hlen := congrArg (fun o => (o.getD []).length) h
    simp at hlen

theorem zero_window_disagree_witness :
    (([6, 3] : List ℚ).length < 2 ^ SIZE_BITS) ∧
      toSizeT (0 - 1) = 2 ^ 64 - 1 ∧
      calculateMovingAverageNaive [6, 3] 0 = some [] ∧
      optimizedGuard [6, 3] 0 = false ∧
      (∃ out, calculateMovingAverageOptimized [6, 3] 0 = some out ∧
        out.length = ([6, 3] : List ℚ).length + 1 ∧
        ∀ x ∈ out, x = (0 : ℚ) / ((0 : Int) : ℚ)) ∧
      calculateMovingAverageNaive [6, 3] 0 ≠ calculateMovingAverageOptimized [6, 3] 0 :=
  ⟨by decide, zero_window_disagree [6, 3] (by decide)⟩

/-! ## Negative window sizes -/

/-- C14: for `data` with `len(data) < 2 ^ 31` and every negative `int`
`k > INT_MIN`, the `int` operand of `i < data.size()` (the start index `k - 1`)
and of `data.size() < k`, converted to `size_t`, exceeds the length, and both
functions return the empty sequence. -/
theorem negative_window_empty (data : List ℚ) (k : Int) (hlen : data.length < 2 ^ 31)
    (hmin : INT_MIN < k) (hneg : k < 0) :
    (data.length < toSizeT (k - 1) ∧ data.length < toSizeT k) ∧
      calculateMovingAverageNaive data k = some [] ∧
      calculateMovingAverageOptimized data k = some [] := by
  have h₁ := toSizeT_of_neg_ge (z := k - 1) (by omega) (by omega)
  have h₂ := toSizeT_of_neg_ge (z := k) hneg (by omega)
  exact ⟨⟨by omega, by omega⟩, naive_of_nonpos data k hlen hmin (by omega),
    optimized_of_neg data k hlen hmin hneg⟩

theorem negative_window_empty_witness :
    ((([2, 7, 1] : List ℚ).length < 2 ^ 31) ∧ INT_MIN < -2 ∧ (-2 : Int) < 0) ∧
      (([2, 7, 1] : List ℚ).length < toSizeT (-2 - 1) ∧
        ([2, 7, 1] : List ℚ).length < toSizeT (-2)) ∧
      calculateMovingAverageNaive [2, 7, 1] (-2) = some [] ∧
      calculateMovingAverageOptimized [2, 7, 1] (-2) = some [] :=
  ⟨⟨by decide, by decide, by decide⟩,
    negative_window_empty [2, 7, 1] (-2) (by decide) (by decide) (by decide)⟩

/-! ## Minimum and maximum of a window -/

theorem listMin_le_of_mem : ∀ (l : List ℚ) (x : ℚ), x ∈ l → listMin l ≤ x
  | [], _, h => by simp at h
  | [a], x, h => by
    rw [List.mem_singleton] at h
    rw [h, listMin]
  | a :: b :: l, x, h => by
    rw [listMin]
    rcases List.mem_cons.mp h with h | h
    · rw [h]
      exact min_le_left _ _
    · exact le_trans (min_le_right _ _) (listMin_le_of_mem (b :: l) x h)

theorem le_listMax_of_mem : ∀ (l : List ℚ) (x : ℚ), x ∈ l → x ≤ listMax l
  | [], _, h => by simp at h
  | [a], x, h => by
    rw [List.mem_singleton] at h
    rw [h, listMax]
  | a :: b :: l, x, h => by
    rw [listMax]
    rcases List.mem_cons.mp h with h | h
    · rw [h]
      exact le_max_left _ _
    · exact le_trans (le_listMax_of_mem (b :: l) x h) (le_max_right _ _)

theorem listMin_mem : ∀ (l : List ℚ), l ≠ [] → listMin l ∈ l
  | [], h => absurd rfl h
  | [a], _ => by simp [listMin]
  | a :: b :: l, _ => by
    rw [listMin]
    rcases min_choice a (listMin (b :: l)) with h | h
    · rw [h]
      exact List.mem_cons_self _ _
    · rw [h]
      exact List.mem_cons_of_mem _ (listMin_mem (b :: l) (by simp))

theorem listMax_mem : ∀ (l : List ℚ), l ≠ [] → listMax l ∈ l
  | [], h => absurd rfl h
  | [a], _ => by simp [listMax]
  | a :: b :: l, _ => by
    rw [listMax]
    rcases max_choice a (listMax (b :: l)) with h | h
    · rw [h]
      exact List.mem_cons_self _ _
    · rw [h]
      exact List.mem_cons_of_mem _ (listMax_mem (b :: l) (by simp))

theorem windowSum_eq_window_sum (data : List ℚ) (start len : Nat) :
    windowSum data start len = (window data start len).sum := rfl

theorem window_length (data : List ℚ) (start len : Nat) (h : start + len ≤ data.length) :
    (window data start len).length = len := by
  unfold window
  rw [List.length_take, List.length_drop]
  omega

theorem mem_of_mem_window (data : List ℚ) (start len : Nat) (x : ℚ)
    (h : x ∈ window data start len) : x ∈ data :=
  List.mem_of_mem_drop (List.mem_of_mem_take h)

/-- The mean of a non-empty list lies between its minimum and its maximum. -/
theorem listMin_le_mean_le_listMax (l : List ℚ) (hl : 1 ≤ l.length) :
    listMin l ≤ l.sum / (l.length : ℚ) ∧ l.sum / (l.length : ℚ) ≤ listMax l := by
  have hpos : (0 : ℚ) < (l.length : ℚ) := by exact_mod_cast hl
  have hlo := List.card_nsmul_le_sum l (listMin l) (fun x hx => listMin_le_of_mem l x hx)
  have hhi := List.sum_le_card_nsmul l (listMax l) (fun x hx => le_listMax_of_mem l x hx)
  rw [nsmul_eq_mul] at hlo hhi
  constructor
  · rw [le_div_iff₀ hpos]
    linarith
  · rw [div_le_iff₀ hpos]
    linarith

/-- The range of a non-empty window lies within the range of the data. -/
theorem listMin_le_window (data : List ℚ) (start len : Nat) (hlen : 1 ≤ len)
    (h : start + len ≤ data.length) :
    listMin data ≤ listMin (window data start len) ∧
      listMax (window data start len) ≤ listMax data := by
  have hne : window data start len ≠ [] := by
    intro h0
    have := window_length data start len h
    rw [h0] at this
    simp at this
    omega
  exact ⟨listMin_le_of_mem data _ (mem_of_mem_window data start len _ (listMin_mem _ hne)),
    le_listMax_of_mem data _ (mem_of_mem_window data start len _ (listMax_mem _ hne))⟩

theorem movingAverageSpec_getElem (data : List ℚ) (K i : Nat)
    (hi : i < (movingAverageSpec data K).length) :
    (movingAverageSpec data K)[i] = (window data i K).sum / (K : ℚ) := by
  have hlen := movingAverageSpec_length data K
  have h := movingAverageSpec_getElem? data K i (by omega)
  rw [List.getElem?_eq_getElem hi] at h
  exact Option.some.inj h

/-! ## Every average lies within the range of its window -/

/-- C15: for `1 ≤ k ≤ len(data)` both functions return the same sequence `out`,
and for every output index `i` the element `out[i]` lies between the minimum
and the maximum of the window `data[i..i+k-1]`, hence between the minimum and
the maximum of `data`. -/
theorem average_within_range (data : List ℚ) (k : Int) (hk : 1 ≤ k)
    (hkn : k ≤ (data.length : Int)) :
    ∃ out, calculateMovingAverageOptimized data k = some out ∧
      calculateMovingAverageNaive data k = some out ∧
      ∀ (i : Nat) (hi : i < out.length),
        (listMin (window data i k.toNat) ≤ out[i] ∧
          out[i] ≤ listMax (window data i k.toNat)) ∧
        (listMin data ≤ out[i] ∧ out[i] ≤ listMax data) := by
  lift k to ℕ using (by omega)
  refine ⟨movingAverageSpec data k, optimized_eq_spec data k, naive_eq_spec data k (by omega), ?_⟩
  intro i hi
  have hlen := movingAverageSpec_length data k
  have hwlen := window_length data i k (by omega)
  have hmean := listMin_le_mean_le_listMax (window data i k) (by omega)
  have hsub := listMin_le_window data i k (by omega) (by omega)
  rw [hwlen] at hmean
  rw [movingAverageSpec_getElem data k i hi, Int.toNat_ofNat]
  exact ⟨hmean, le_trans hsub.1 hmean.1, le_trans hmean.2 hsub.2⟩

theorem average_within_range_witness :
    ((1 : Int) ≤ 2 ∧ (2 : Int) ≤ (([8, 2, 5] : List ℚ).length : Int)) ∧
    ∃ out, calculateMovingAverageOptimized [8, 2, 5] 2 = some out ∧
      calculateMovingAverageNaive [8, 2, 5] 2 = some out ∧
      ∀ (i : Nat) (hi : i < out.length),
        (listMin (window [8, 2, 5] i (2 : Int).toNat) ≤ out[i] ∧
          out[i] ≤ listMax (window [8, 2, 5] i (2 : Int).toNat)) ∧
        (listMin [8, 2, 5] ≤ out[i] ∧ out[i] ≤ listMax [8, 2, 5]) :=
  ⟨⟨by decide, by decide⟩, average_within_range [8, 2, 5] 2 (by decide) (by decide)⟩

/-! ## The sliding recurrence -/

/-- C16: for `data` of length `n`, `1 ≤ k ≤ n` and `0 ≤ i < n - k`, both functions
return the same sequence `out`, and its consecutive elements satisfy
`out[i + 1] - out[i] = (data[i + k] - data[i]) / k`. -/
theorem sliding_recurrence (data : List ℚ) (k : Int) (i : Nat) (hk : 1 ≤ k)
    (hkn : k ≤ (data.length : Int)) (hi : (i : Int) < (data.length : Int) - k) :
    ∃ out, calculateMovingAverageNaive data k = some out ∧
      calculateMovingAverageOptimized data k = some out ∧
      ∃ a b x y, out[i]? = some a ∧ out[i + 1]? = some b ∧
        data[i]? = some x ∧ data[i + k.toNat]? = some y ∧
        b - a = (y - x) / (k : ℚ) := by
  lift k to ℕ using (by omega)
  obtain ⟨x, hx⟩ : ∃ x, data[i]? = some x := ⟨_, List.getElem?_eq_getElem (by omega)⟩
  obtain ⟨y, hy⟩ : ∃ y, data[i + k]? = some y := ⟨_, List.getElem?_eq_getElem (by omega)⟩
  refine ⟨movingAverageSpec data k, naive_eq_spec data k (by omega), optimized_eq_spec data k,
    _, _, x, y, movingAverageSpec_getElem? data k i (by omega),
    movingAverageSpec_getElem? data k (i + 1) (by omega), hx, ?_, ?_⟩
  · rw [Int.toNat_ofNat, hy]
  · rw [windowSum_slide data i k x y hx hy, Int.cast_natCast]
    ring

theorem sliding_recurrence_witness :
    ((1 : Int) ≤ 2 ∧ (2 : Int) ≤ (([3, 9, 4, 6] : List ℚ).length : Int) ∧
      ((1 : Nat) : Int) < (([3, 9, 4, 6] : List ℚ).length : Int) - 2) ∧
    ∃ out, calculateMovingAverageNaive [3, 9, 4, 6] 2 = some out ∧
      calculateMovingAverageOptimized [3, 9, 4, 6] 2 = some out ∧
      ∃ a b x y, out[1]? = some a ∧ out[1 + 1]? = some b ∧
        ([3, 9, 4, 6] : List ℚ)[1]? = some x ∧
        ([3, 9, 4, 6] : List ℚ)[1 + (2 : Int).toNat]? = some y ∧
        b - a = (y - x) / ((2 : Int) : ℚ) :=
  ⟨⟨by decide, by decide, by decide⟩,
    sliding_recurrence [3, 9, 4, 6] 2 1 (by decide) (by decide) (by decide)⟩

/-! ## The loops over doubles -/

/-- The inner loop over doubles entered at `j` adds the `d = k - j` elements that
remain of the window ending at `e`, from `data[e - j]` down to `data[e - k + 1]`. -/
theorem naiveInnerDouble_eq (data : List Dbl) (K e : Nat) (hKe : K ≤ e + 1)
    (he : e < data.length) :
    ∀ (d j : Nat) (s : Dbl), j + d = K →
      naiveInnerDouble data (K : Int) (e : Int) (j : Int) s
        = some (((data.drop (e + 1 - K)).take d).foldr (fun x t => t.add x) s) := by
  intro d
  induction d with
  | zero =>
    intro j s hj
    rw [naiveInnerDouble, if_neg (by omega)]
    rfl
  | succ d ih =>
    intro j s hj
    have hidx : toSizeT ((e : Int) - (j : Int)) = e - j := by
      rw [← toSizeT_natCast (e - j)]
      congr 1
      omega
    obtain ⟨x, hget⟩ : ∃ x, data[e - j]? = some x :=
      ⟨_, List.getElem?_eq_getElem (by omega)⟩
    have hx : (data.drop (e + 1 - K))[d]? = some x := by
      rw [List.getElem?_drop, ← hget]
      congr 1
      omega
    rw [naiveInnerDouble, if_pos (by omega), hidx, hget]
    have hstep := ih (j + 1) (s.add x) (by omega)
    rw [Nat.cast_add, Nat.cast_one] at hstep
    simp only []
    rw [hstep, List.take_succ, hx, List.foldr_append]
    rfl

theorem naiveOuterDouble_stop (data : List Dbl) (k : Int) (e : Nat) (acc : List Dbl)
    (he : data.length ≤ e) : naiveOuterDouble data k (e : Int) acc = some acc := by
  rw [naiveOuterDouble, dif_neg (by rw [toSizeT_natCast]; omega)]

theorem naiveOuterDouble_eq (data : List Dbl) (K : Nat) :
    ∀ (m e : Nat) (acc : List Dbl), e + m = data.length → K ≤ e + 1 →
      naiveOuterDouble data (K : Int) (e : Int) acc
        = some (acc ++ (List.range' (e + 1 - K) m).map
            (fun i => (naiveSumDouble data i K).divInt (K : Int))) := by
  intro m
  induction m with
  | zero =>
    intro e acc he _
    rw [naiveOuterDouble_stop data _ e acc (by omega)]
    simp
  | succ m ih =>
    intro e acc he hKe
    have hin := naiveInnerDouble_eq data K e hKe (by omega) K 0 (Dbl.finite 0) (by omega)
    rw [Nat.cast_zero] at hin
    rw [naiveOuterDouble, dif_pos (by rw [toSizeT_natCast]; omega), hin]
    have hstep := ih (e + 1)
      (acc ++ [(naiveSumDouble data (e + 1 - K) K).divInt (K : Int)]) (by omega) (by omega)
    rw [Nat.cast_add, Nat.cast_one] at hstep
    simp only []
    rw [List.range'_succ, List.map_cons]
    have : e + 1 + 1 - K = e + 1 - K + 1 := by omega
    rw [this, List.append_assoc] at hstep
    exact hstep

/-- For a window size `K ≥ 1` the naive function over doubles returns, for each
window, the sum accumulated from its last element to its first, divided by `K`. -/
theorem naiveDouble_eq (data : List Dbl) (K : Nat) (hK : 1 ≤ K) :
    calculateMovingAverageNaiveDouble data (K : Int)
      = some ((List.range (data.length + 1 - K)).map
          (fun i => (naiveSumDouble data i K).divInt (K : Int))) := by
  unfold calculateMovingAverageNaiveDouble
  have hcast : (K : Int) - 1 = ((K - 1 : Nat) : Int) := by omega
  rw [hcast]
  by_cases h : K - 1 ≤ data.length
  · rw [naiveOuterDouble_eq data K (data.length + 1 - K) (K - 1) [] (by omega) (by omega)]
    have : K - 1 + 1 - K = 0 := by omega
    rw [this, List.nil_append, List.range_eq_range']
  · rw [naiveOuterDouble_stop data _ (K - 1) [] (by omega)]
    have : data.length + 1 - K = 0 := by omega
    rw [this]
    rfl

theorem optimizedFirstDouble_eq (data : List Dbl) (K : Nat) (hK : K ≤ data.length) :
    ∀ (d i : Nat) (s : Dbl), i + d = K →
      optimizedFirstDouble data (K : Int) (i : Int) s
        = some (((data.drop i).take d).foldl Dbl.add s) := by
  intro d
  induction d with
  | zero =>
    intro i s hi
    rw [optimizedFirstDouble, if_neg (by omega)]
    rfl
  | succ d ih =>
    intro i s hi
    have hlt : i < data.length := by omega
    rw [optimizedFirstDouble, if_pos (by omega), toSizeT_natCast, List.getElem?_eq_getElem hlt]
    have hstep := ih (i + 1) (s.add data[i]) (by omega)
    rw [Nat.cast_add, Nat.cast_one] at hstep
    simp only []
    rw [hstep, List.drop_eq_getElem_cons hlt, List.take_succ_cons, List.foldl_cons]

theorem optimizedSlideDouble_eq (data : List Dbl) (K : Nat) :
    ∀ (m i : Nat) (acc : List Dbl), i + m = data.length → K ≤ i →
      optimizedSlideDouble data (K : Int) (i : Int) (slideSumDouble data K (i - K)) acc
        = some (acc ++ (List.range' (i - K + 1) m).map
            (fun t => (slideSumDouble data K t).divInt (K : Int))) := by
  intro m
  induction m with
  | zero =>
    intro i acc hi _
    rw [optimizedSlideDouble, dif_neg (by rw [toSizeT_natCast]; omega)]
    simp
  | succ m ih =>
    intro i acc hi hKi
    have hidx : toSizeT ((i : Int) - (K : Int)) = i - K := by
      rw [← toSizeT_natCast (i - K)]
      congr 1
      omega
    obtain ⟨a, ha⟩ : ∃ a, data[i - K]? = some a :=
      ⟨_, List.getElem?_eq_getElem (by omega)⟩
    obtain ⟨b, hb⟩ : ∃ b, data[i]? = some b :=
      ⟨_, List.getElem?_eq_getElem (by omega)⟩
    have hnext : slideSumDouble data K (i + 1 - K)
        = ((slideSumDouble data K (i - K)).sub a).add b := by
      have h₁ : i + 1 - K = (i - K) + 1 := by omega
      have h₂ : i - K + K = i := by omega
      rw [h₁, slideSumDouble, List.getD_eq_getElem?_getD, List.getD_eq_getElem?_getD, h₂, ha, hb]
      rfl
    rw [optimizedSlideDouble, dif_pos (by rw [toSizeT_natCast]; omega), hidx, toSizeT_natCast,
      ha, hb]
    simp only []
    rw [← hnext]
    have hstep := ih (i + 1) (acc ++ [(slideSumDouble data K (i + 1 - K)).divInt (K : Int)])
      (by omega) (by omega)
    rw [Nat.cast_add, Nat.cast_one] at hstep
    rw [hstep, List.range'_succ, List.map_cons, List.append_assoc]
    have h₁ : i + 1 - K = (i - K) + 1 := by omega
    rw [h₁]
    rfl

/-- For every window size `K ≥ 0` the optimized function over doubles returns,
for each window, the running sum at that window divided by `K`. -/
theorem optimizedDouble_eq (data : List Dbl) (K : Nat) :
    calculateMovingAverageOptimizedDouble data (K : Int)
      = some ((List.range (data.length + 1 - K)).map
          (fun i => (slideSumDouble data K i).divInt (K : Int))) := by
  unfold calculateMovingAverageOptimizedDouble
  rw [toSizeT_natCast]
  by_cases h : data.length < K
  · rw [if_pos h]
    have : data.length + 1 - K = 0 := by omega
    rw [this]
    rfl
  · rw [if_neg h]
    have hfirst := optimizedFirstDouble_eq data K (by omega) K 0 (Dbl.finite 0) (by omega)
    rw [Nat.cast_zero, List.drop_zero] at hfirst
    rw [hfirst]
    simp only []
    have hslide := optimizedSlideDouble_eq data K (data.length - K) K
      [(slideSumDouble data K 0).divInt (K : Int)] (by omega) (by omega)
    rw [Nat.sub_self] at hslide
    have h0 : slideSumDouble data K 0 = (data.take K).foldl Dbl.add (Dbl.finite 0) := rfl
    rw [← h0, hslide]
    have : data.length + 1 - K = (data.length - K) + 1 := by omega
    rw [this, List.range_eq_range', List.range'_succ, List.map_cons, zero_add]
    rfl

/-! ## Rounding to binary64 -/

theorem roundHalfEven_intCast (z : Int) : roundHalfEven (z : ℚ) = z := by
  simp [roundHalfEven]

/-- A number `m * 2 ^ j` with `|m| < 2 ^ 53` is a double: rounding leaves it
unchanged. -/
theorem roundBinary64_of_representable (m j : Int) (hm : |m| < 2 ^ 53) :
    roundBinary64 ((m : ℚ) * 2 ^ j) = (m : ℚ) * 2 ^ j := by
  by_cases h0 : m = 0
  · simp [h0, roundBinary64]
  have hx : (m : ℚ) * 2 ^ j ≠ 0 := by
    apply mul_ne_zero
    · exact_mod_cast h0
    · positivity
  have habs : |(m : ℚ) * 2 ^ j| = |(m : ℚ)| * 2 ^ j := by
    rw [abs_mul, abs_of_pos (by positivity : (0 : ℚ) < 2 ^ j)]
  have hpos : 0 < |(m : ℚ) * 2 ^ j| := abs_pos.mpr hx
  set e := Int.log 2 |(m : ℚ) * 2 ^ j| with he
  have hle : ((2 : ℕ) : ℚ) ^ e ≤ |(m : ℚ) * 2 ^ j| := Int.zpow_log_le_self (by norm_num) hpos
  rw [Nat.cast_ofNat] at hle
  have hmq : |(m : ℚ)| < 2 ^ (53 : Int) := by
    have : ((|m| : Int) : ℚ) < ((2 ^ 53 : Int) : ℚ) := by exact_mod_cast hm
    rw [Int.cast_abs] at this
    calc |(m : ℚ)| < ((2 ^ 53 : Int) : ℚ) := this
      _ = 2 ^ (53 : Int) := by norm_num
  have hlt : (2 : ℚ) ^ e < 2 ^ (53 + j) := by
    calc (2 : ℚ) ^ e ≤ |(m : ℚ)| * 2 ^ j := by rw [← habs]; exact hle
      _ < 2 ^ (53 : Int) * 2 ^ j := by
        apply mul_lt_mul_of_pos_right hmq (by positivity)
      _ = 2 ^ (53 + j) := by rw [← zpow_add₀ (by norm_num)]
  have hej : e < 53 + j := (zpow_lt_zpow_iff_right₀ (by norm_num : (1 : ℚ) < 2)).mp hlt
  obtain ⟨d, hd⟩ : ∃ d : ℕ, (d : Int) = j - (e - 52) := ⟨(j - (e - 52)).toNat, by omega⟩
  have hdiv : (m : ℚ) * 2 ^ j / 2 ^ (e - 52) = ((m * 2 ^ d : Int) : ℚ) := by
    rw [mul_div_assoc, ← zpow_sub₀ (by norm_num), ← hd]
    push_cast
    rw [zpow_natCast]
  rw [roundBinary64, if_neg hx, ← he, hdiv, roundHalfEven_intCast]
  push_cast
  rw [mul_assoc, ← zpow_natCast, ← zpow_add₀ (by norm_num), hd]
  congr 2
  ring

/-- An integer of magnitude below `2 ^ 53` is a double. -/
theorem roundBinary64_intCast (m : Int) (hm : |m| < 2 ^ 53) :
    roundBinary64 (m : ℚ) = (m : ℚ) := by
  have h := roundBinary64_of_representable m 0 hm
  rwa [zpow_zero, mul_one] at h

/-- On `[1, NaN, 3, 4, 5]` with `k = 2` the optimized function returns NaN at
every index, the naive function only at the indices `0` and `1` whose windows
contain the NaN. -/
theorem nan_propagation_example :
    calculateMovingAverageOptimizedDouble nanData 2
        = some [Dbl.nan, Dbl.nan, Dbl.nan, Dbl.nan] ∧
      calculateMovingAverageNaiveDouble nanData 2
        = some [Dbl.nan, Dbl.nan, Dbl.finite (7 / 2), Dbl.finite (9 / 2)] := by
  have r4 : roundBinary64 4 = 4 := by simpa using roundBinary64_intCast 4 (by decide)
  have r5 : roundBinary64 5 = 5 := by simpa using roundBinary64_intCast 5 (by decide)
  have r7 : roundBinary64 7 = 7 := by simpa using roundBinary64_intCast 7 (by decide)
  have r9 : roundBinary64 9 = 9 := by simpa using roundBinary64_intCast 9 (by decide)
  have r72 : roundBinary64 (7 / 2) = 7 / 2 := by
    have h := roundBinary64_of_representable 7 (-1) (by decide)
    norm_num at h
    exact h
  have r92 : roundBinary64 (9 / 2) = 9 / 2 := by
    have h := roundBinary64_of_representable 9 (-1) (by decide)
    norm_num at h
    exact h
  constructor
  · have h := optimizedDouble_eq nanData 2
    rw [Nat.cast_ofNat] at h
    rw [h]
    simp [nanData, slideSumDouble, List.range_succ, Dbl.add, Dbl.sub, Dbl.divInt]
  · have h := naiveDouble_eq nanData 2 (by decide)
    rw [Nat.cast_ofNat] at h
    rw [h]
    simp [nanData, naiveSumDouble, List.range_succ, Dbl.add, Dbl.divInt]
    norm_num [r4, r5, r7, r9, r72, r92]

end MovingAverage
